import Mathlib

/-!
# Verification of `finance_manager.py`

A shallow embedding, in Lean 4, of the core of the personal finance manager
(`Expense` validation, the CSV store's save/load/backup/restore logic, and the
report engine), together with proofs and refutations of the specification's
claims about it.

Modelling conventions:

* Python floats are modelled by `Pyf`: an exact rational for finite values,
  plus the special values `nan`, `inf`, `ninf`.  Finite arithmetic is exact
  rational arithmetic (an idealization of binary floating point — none of the
  claims below hinges on binary representation error), while the IEEE 754
  comparison and propagation rules for the special values are modelled
  faithfully (`nan` compares false to everything, etc.).
* Strings are modelled by their character lists, with ASCII classification for
  digits, letters and whitespace (`str.strip`, `str.title`, `str.lower`,
  `float(...)` parsing and `datetime.strptime` all operate on ASCII data in
  this program).
* `float(...)` parsing (`pyParseFloat`) covers signs, decimal literals and the
  special names `nan`/`inf`/`infinity`, after whitespace stripping, as CPython
  does; exponent notation and digit-group underscores are not modelled (no
  claim depends on them).
* The CSV file is modelled as an optional list of rows of fields
  (`Option (List (List String))`, `none` = file absent).  The `csv` module's
  quoting/escaping is an external stdlib collaborator that round-trips rows of
  fields exactly, so the embedding works at the rows-of-fields level.
  `csv.DictReader` semantics (first row is the header, short rows padded with
  `None`, lookup by field name with `KeyError` on a missing column) are
  modelled in `rowGet`/`loadRow`.
* `str(float)` (what `csv.writer` applies to the amount field) is modelled by
  `reprAmt` for the values the program stores: two-decimal non-negative
  finites (CPython's shortest-repr prints these as their minimal decimal
  literal), `nan` and `inf`.
* Python exceptions are modelled by `Except`/`Option` results; the load loop's
  distinction between a caught per-row `ValueError` (row skipped) and any
  other exception (caught by the outer handler, aborting the remaining rows)
  is modelled by `RowOut`.
-/

/-! ## Python float values -/

/-- A Python float: an exact rational (idealizing the binary mantissa) or one
of the IEEE special values. -/
inductive Pyf where
  | finite (q : ℚ)
  | nan
  | inf
  | ninf
deriving DecidableEq, Repr

/-- Whether a float is finite (neither `nan` nor an infinity). -/
def Pyf.isFinite : Pyf → Bool
  | .finite _ => true
  | _ => false

/-- IEEE `<=` comparison: any comparison with `nan` is false. -/
def pyfLe : Pyf → Pyf → Bool
  | .nan, _ => false
  | _, .nan => false
  | .ninf, _ => true
  | _, .inf => true
  | .inf, _ => false
  | _, .ninf => false
  | .finite a, .finite b => decide (a ≤ b)

/-- IEEE `<` comparison: any comparison with `nan` is false. -/
def pyfLt : Pyf → Pyf → Bool
  | .nan, _ => false
  | _, .nan => false
  | .ninf, .ninf => false
  | .ninf, _ => true
  | .inf, _ => false
  | .finite _, .inf => true
  | _, .ninf => false
  | .finite a, .finite b => decide (a < b)

/-- IEEE addition on the model: exact on finite values, `nan`-propagating,
with `inf + ninf = nan`. -/
def pyfAdd : Pyf → Pyf → Pyf
  | .nan, _ => .nan
  | _, .nan => .nan
  | .inf, .ninf => .nan
  | .ninf, .inf => .nan
  | .inf, _ => .inf
  | _, .inf => .inf
  | .ninf, _ => .ninf
  | _, .ninf => .ninf
  | .finite a, .finite b => .finite (a + b)

/-- IEEE division on the model (the program only divides by a positive
integer count, so only that column matters). -/
def pyfDiv : Pyf → Pyf → Pyf
  | .nan, _ => .nan
  | _, .nan => .nan
  | .inf, .inf => .nan
  | .inf, .ninf => .nan
  | .ninf, .inf => .nan
  | .ninf, .ninf => .nan
  | .inf, .finite b => if 0 ≤ b then .inf else .ninf
  | .ninf, .finite b => if 0 ≤ b then .ninf else .inf
  | .finite _, .inf => .finite 0
  | .finite _, .ninf => .finite 0
  | .finite a, .finite b => if b = 0 then .nan else .finite (a / b)

/-- Round-half-even to an integer (the tie rule of Python's `round`): the
floor when the fractional part is below one half, the ceiling when above, the
even neighbour on a tie. -/
def roundHalfEven (x : ℚ) : ℤ :=
  if x - ⌊x⌋ < 1/2 then ⌊x⌋
  else if 1/2 < x - ⌊x⌋ then ⌊x⌋ + 1
  else if ⌊x⌋ % 2 = 0 then ⌊x⌋ else ⌊x⌋ + 1

/-- Python's `round(x, 2)`: round to the nearest multiple of 1/100, ties to
even; `nan` and the infinities are returned unchanged. -/
def round2 : Pyf → Pyf
  | .finite q => .finite ((roundHalfEven (100 * q) : ℚ) / 100)
  | .nan => .nan
  | .inf => .inf
  | .ninf => .ninf

/-! ## ASCII character and string helpers -/

/-- ASCII decimal digit. -/
def isDigitB (c : Char) : Bool := 48 ≤ c.toNat && c.toNat ≤ 57

/-- Numeric value of an ASCII digit. -/
def digitVal (c : Char) : ℕ := c.toNat - 48

/-- Value of a list of ASCII digits read as a decimal numeral. -/
def digitsVal (l : List Char) : ℕ := l.foldl (fun a c => 10 * a + digitVal c) 0

/-- All characters are ASCII digits. -/
def allDigits (l : List Char) : Bool := l.all isDigitB

/-- ASCII whitespace, as recognized by `str.strip` / `float`. -/
def isSpaceB (c : Char) : Bool :=
  c == ' ' || c == '\t' || c == '\n' || c == '\r' || c == '\x0b' || c == '\x0c'

/-- ASCII uppercase letter to lowercase; other characters unchanged. -/
def toLowerB (c : Char) : Char :=
  if 65 ≤ c.toNat ∧ c.toNat ≤ 90 then Char.ofNat (c.toNat + 32) else c

/-- ASCII lowercase letter to uppercase; other characters unchanged. -/
def toUpperB (c : Char) : Char :=
  if 97 ≤ c.toNat ∧ c.toNat ≤ 122 then Char.ofNat (c.toNat - 32) else c

/-- ASCII letter. -/
def isAlphaB (c : Char) : Bool :=
  (65 ≤ c.toNat && c.toNat ≤ 90) || (97 ≤ c.toNat && c.toNat ≤ 122)

/-- `str.strip` on a character list. -/
def stripL (l : List Char) : List Char :=
  ((l.dropWhile isSpaceB).reverse.dropWhile isSpaceB).reverse

/-- Python `str.strip()`. -/
def pyStrip (s : String) : String := String.mk (stripL s.data)

/-- Worker for `str.title`: the flag records whether the previous character
was a (cased) letter. -/
def titleGo : Bool → List Char → List Char
  | _, [] => []
  | prevAlpha, c :: rest =>
    (if isAlphaB c then (if prevAlpha then toLowerB c else toUpperB c) else c)
      :: titleGo (isAlphaB c) rest

/-- Python `str.title()`: the first letter of each alphabetic run is
uppercased, subsequent letters lowercased. -/
def pyTitle (s : String) : String := String.mk (titleGo false s.data)

/-- Python `str.lower()`. -/
def pyLower (s : String) : String := String.mk (s.data.map toLowerB)

/-- Lexicographic `<=` on character lists by code point, Python's string
comparison. -/
def lexLeL : List Char → List Char → Bool
  | [], _ => true
  | _ :: _, [] => false
  | a :: as, b :: bs => if a = b then lexLeL as bs else decide (a.toNat < b.toNat)

/-- Python `s <= t` on strings. -/
def pyStrLe (a b : String) : Bool := lexLeL a.data b.data

/-- Does the second list start with the first? -/
def beginsWith : List Char → List Char → Bool
  | [], _ => true
  | _ :: _, [] => false
  | a :: as, b :: bs => a == b && beginsWith as bs

/-- Contiguous-substring test on character lists (Python's `in`). -/
def containsSub (n : List Char) : List Char → Bool
  | [] => beginsWith n []
  | c :: t => beginsWith n (c :: t) || containsSub n t

/-- Python `sub in s` for strings. -/
def pyContains (sub s : String) : Bool := containsSub sub.data s.data

/-! ## `float(...)` parsing and `str(float)` rendering -/

/-- Parse an unsigned decimal literal: digits, optionally with one decimal
point, at least one digit in total (the integer digits are the run before the
first `.`, written out as `takeWhile`/`dropWhile`). -/
def parseUDec (l : List Char) : Option ℚ :=
  match l.dropWhile (fun c => c != '.') with
  | [] =>
    if l.takeWhile (fun c => c != '.') ≠ [] ∧
        allDigits (l.takeWhile (fun c => c != '.')) = true then
      some (digitsVal (l.takeWhile (fun c => c != '.')))
    else none
  | _ :: fp =>
    if (l.takeWhile (fun c => c != '.') ≠ [] ∨ fp ≠ []) ∧
        allDigits (l.takeWhile (fun c => c != '.')) = true ∧
        allDigits fp = true ∧ fp.all (fun c => c != '.') = true then
      some ((digitsVal (l.takeWhile (fun c => c != '.')) : ℚ) +
        (digitsVal fp : ℚ) / (10 : ℚ) ^ fp.length)
    else none

/-- The sign-free part of `float(s)`: the special names `nan`/`inf`/
`infinity` (case-insensitively), else a decimal literal. -/
def pyParseNum (neg : Bool) (u : List Char) : Option Pyf :=
  if u.map toLowerB = ['n', 'a', 'n'] then some .nan
  else if u.map toLowerB = ['i', 'n', 'f'] ∨
      u.map toLowerB = ['i', 'n', 'f', 'i', 'n', 'i', 't', 'y'] then
    some (if neg then .ninf else .inf)
  else
    match parseUDec u with
    | some q => some (.finite (if neg then -q else q))
    | none => none

/-- Python `float(s)` on a string: strip whitespace, optional sign, then the
special names or a decimal literal.  `none` models a raised `ValueError`. -/
def pyParseFloat (s : String) : Option Pyf :=
  if (stripL s.data).head? = some '-' then pyParseNum true (stripL s.data).tail
  else if (stripL s.data).head? = some '+' then pyParseNum false (stripL s.data).tail
  else pyParseNum false (stripL s.data)

/-- Decimal rendering of a natural number. -/
def natRender (n : ℕ) : List Char :=
  if n < 10 then [Char.ofNat (48 + n)]
  else natRender (n / 10) ++ [Char.ofNat (48 + n % 10)]
termination_by n
decreasing_by omega

/-- Fractional-part digits (for cents `r < 100`) of CPython's shortest repr:
`"0"` for zero, one digit when the cents are a multiple of ten, two digits
otherwise. -/
def fracCents (r : ℕ) : List Char :=
  if r = 0 then ['0']
  else if r % 10 = 0 then [Char.ofNat (48 + r / 10)]
  else if r < 10 then ['0', Char.ofNat (48 + r)]
  else natRender r

/-- CPython `repr`/`str` of the non-negative two-decimal float with value
`n`/100: minimal decimal literal with at least one fractional digit
(`500 ↦ "5.0"`, `520 ↦ "5.2"`, `502 ↦ "5.02"`, `525 ↦ "5.25"`). -/
def renderCentsL (n : ℕ) : List Char :=
  natRender (n / 100) ++ '.' :: fracCents (n % 100)

/-- `str(v)` for the float values the program writes to the CSV file: the
stored amounts (non-negative multiples of 1/100) and the special values.
`fracCents` renders the fractional part (the cents `r = n % 100`) the way
CPython's shortest repr does for such values: `"0"` for whole numbers, one
digit when the cents are a multiple of ten, two digits otherwise.
The `"?"` branch is unreachable for well-formed stored amounts. -/
def reprAmt : Pyf → String
  | .nan => "nan"
  | .inf => "inf"
  | .ninf => "-inf"
  | .finite q =>
    if (100 * q).den = 1 ∧ 0 ≤ q then String.mk (renderCentsL (100 * q).num.toNat)
    else "?"

/-! ## `datetime.strptime(date, "%Y-%m-%d")` -/

/-- Leap year test. -/
def isLeap (y : ℕ) : Bool := y % 4 == 0 && (y % 100 != 0 || y % 400 == 0)

/-- Days in a month of the proleptic Gregorian calendar. -/
def daysInMonth (y m : ℕ) : ℕ :=
  if m = 2 then (if isLeap y then 29 else 28)
  else if m = 4 ∨ m = 6 ∨ m = 9 ∨ m = 11 then 30
  else 31

/-- `datetime.strptime(s, "%Y-%m-%d")`: `%Y` requires exactly four digits,
while `%m` and `%d` accept one- or two-digit values in range (CPython's
`_strptime` patterns `1[0-2]|0[1-9]|[1-9]` and `3[01]|[12]\d|0[1-9]|[1-9]`,
which do not require zero padding); the resulting year/month/day must form a
valid calendar date.  `none` models a raised `ValueError`.  The overall match
of the `_strptime` regex against `YYYY-MM-DD` is equivalent to splitting the
string at its two dashes (no component may contain a dash), done by
`splitDashes`, followed by the per-component checks in `strptimeYmd`. -/
def splitDashes (l : List Char) : Option (List Char × List Char × List Char) :=
  let ys := l.takeWhile (fun c => c != '-')
  match l.dropWhile (fun c => c != '-') with
  | [] => none
  | _ :: l2 =>
    let ms := l2.takeWhile (fun c => c != '-')
    match l2.dropWhile (fun c => c != '-') with
    | [] => none
    | _ :: ds =>
      if ds.all (fun c => c != '-') = true then some (ys, ms, ds) else none

def strptimeYmd (s : String) : Option (ℕ × ℕ × ℕ) :=
  match splitDashes s.data with
  | none => none
  | some (ys, ms, ds) =>
    if allDigits ys = true ∧ ys.length = 4 ∧ 1 ≤ digitsVal ys ∧
        allDigits ms = true ∧ (ms.length = 1 ∨ ms.length = 2) ∧
        1 ≤ digitsVal ms ∧ digitsVal ms ≤ 12 ∧
        allDigits ds = true ∧ (ds.length = 1 ∨ ds.length = 2) ∧
        1 ≤ digitsVal ds ∧
        digitsVal ds ≤ daysInMonth (digitsVal ys) (digitsVal ms) then
      some (digitsVal ys, digitsVal ms, digitsVal ds)
    else none

/-! ## The `Expense` entity -/

/-- Which validation failed (the three `ValueError` messages of
`Expense._validate_amount` / `_validate_category` / `_validate_date`). -/
inductive VErr where
  | invalidAmount
  | invalidCategory
  | invalidDate
deriving DecidableEq, Repr

/-- A validated expense: the fields stored by `Expense.__init__`. -/
structure Expense where
  amount : Pyf
  category : String
  date : String
  description : String
deriving DecidableEq, Repr

/-- `Expense.CATEGORIES`. -/
def CATEGORIES : List String :=
  ["Food", "Transport", "Entertainment", "Shopping", "Utilities",
   "Healthcare", "Education", "Other"]

/-- `Expense._validate_amount`: `float(amount)` (a `None` cell raises
`TypeError`, re-raised as `ValueError`), reject when `amt <= 0`, then
`round(amt, 2)`. -/
def validate_amount (a : Option String) : Except VErr Pyf :=
  match a with
  | none => .error .invalidAmount
  | some s =>
    match pyParseFloat s with
    | none => .error .invalidAmount
    | some v => if pyfLe v (.finite 0) = true then .error .invalidAmount else .ok (round2 v)

/-- `Expense._validate_category`: `category.strip().title()`, membership in
`CATEGORIES`. -/
def validate_category (c : String) : Except VErr String :=
  let cat := pyTitle (pyStrip c)
  if cat ∈ CATEGORIES then .ok cat else .error .invalidCategory

/-- `Expense._validate_date`: `datetime.strptime(date, "%Y-%m-%d")`, returning
the input string unchanged on success. -/
def validate_date (d : String) : Except VErr String :=
  if (strptimeYmd d).isSome then .ok d else .error .invalidDate

/-- `Expense.__init__`: validate amount, then category, then date, then store
the stripped description.  The amount argument is the raw (string) input; the
other three are strings. -/
def mkExpense (a : Option String) (c d ds : String) : Except VErr Expense :=
  match validate_amount a with
  | .error err => .error err
  | .ok amt =>
    match validate_category c with
    | .error err => .error err
    | .ok cat =>
      match validate_date d with
      | .error err => .error err
      | .ok dt => .ok ⟨amt, cat, dt, pyStrip ds⟩

/-! ## The file store: `FileManager.save_expenses` / `load_expenses` -/

/-- The header row written by `save_expenses`. -/
def stdHeader : List String := ["Date", "Category", "Amount", "Description"]

/-- `FileManager.save_expenses`: header row, then one row per expense in
collection order, the amount rendered by `str(float)`. -/
def save_expenses (es : List Expense) : List (List String) :=
  stdHeader :: es.map (fun e => [e.date, e.category, reprAmt e.amount, e.description])

/-- Index of the last occurrence of a key in a list (`dict(zip(...))` lets a
later duplicate header name win). -/
def lastIdx : List String → String → Option ℕ
  | [], _ => none
  | x :: xs, k =>
    match lastIdx xs k with
    | some i => some (i + 1)
    | none => if x = k then some 0 else none

/-- `row[k]` on a `csv.DictReader` row: `KeyError` (modelled `.error ()`) when
the column is absent from the header; a row shorter than the header yields the
`restval` `None` (modelled `.ok none`). -/
def rowGet (hdr row : List String) (k : String) : Except Unit (Option String) :=
  match lastIdx hdr k with
  | none => .error ()
  | some i => .ok row[i]?

/-- Outcome of one iteration of the load loop: a constructed expense, a row
skipped by the inner `except ValueError`, or an exception that escapes to the
outer handler and aborts the loop. -/
inductive RowOut where
  | rok (e : Expense)
  | rskip
  | rabort
deriving DecidableEq, Repr

/-- One row of `load_expenses`: the four `row[...]` lookups happen first (a
missing column is a `KeyError` → abort); then `Expense.__init__` validates
amount (a `None` amount becomes `ValueError` → skip), category/date/
description (a `None` there raises `AttributeError`/`TypeError`, which the
inner `except ValueError` does not catch → abort), with failed validations
skipped. -/
def loadRow (hdr row : List String) : RowOut :=
  match rowGet hdr row "Amount", rowGet hdr row "Category",
      rowGet hdr row "Date", rowGet hdr row "Description" with
  | .ok aC, .ok cC, .ok dC, .ok dsC =>
    (match validate_amount aC with
     | .error _ => .rskip
     | .ok amt =>
       match cC with
       | none => .rabort
       | some c =>
         match validate_category c with
         | .error _ => .rskip
         | .ok cat =>
           match dC with
           | none => .rabort
           | some d =>
             match validate_date d with
             | .error _ => .rskip
             | .ok _ =>
               match dsC with
               | none => .rabort
               | some ds => .rok ⟨amt, cat, d, pyStrip ds⟩)
  | _, _, _, _ => .rabort

/-- The load loop: skipped rows are dropped, an aborting row ends the loop
(the outer `except` returns the expenses accumulated so far). -/
def loadRows (hdr : List String) : List (List String) → List Expense
  | [] => []
  | r :: rs =>
    match loadRow hdr r with
    | .rok e => e :: loadRows hdr rs
    | .rskip => loadRows hdr rs
    | .rabort => []

/-- `FileManager.load_expenses`: an absent file yields the empty collection;
otherwise the first row is the `DictReader` header and the rest are parsed by
the load loop. -/
def load_expenses : Option (List (List String)) → List Expense
  | none => []
  | some [] => []
  | some (hdr :: rows) => loadRows hdr rows

/-! ## The backup store: `FileManager.restore_from_backup` -/

/-- The store's on-disk state: the primary file's bytes (if present) and the
backup directory's entries, as plain file names (the names produced by
`backup_data` and listed by `list_backups` contain no path separators). -/
structure Store where
  primary : Option String
  backups : List (String × String)
deriving DecidableEq, Repr

/-- First-match association-list lookup. -/
def alookup {α : Type} : List (String × α) → String → Option α
  | [], _ => none
  | (k, v) :: rest, c => if k = c then some v else alookup rest c

/-- `FileManager.restore_from_backup`: a missing backup is reported by a
`False` return (after printing "Backup file not found"), leaving the store
untouched; otherwise the backup's bytes overwrite the primary file. -/
def restore_from_backup (st : Store) (name : String) : Bool × Store :=
  match alookup st.backups name with
  | none => (false, st)
  | some bytes => (true, { st with primary := some bytes })

/-! ## The report engine -/

/-- `sum(exp.amount for exp in expenses)` (Python's `sum` folds from the left
starting at `0`). -/
def sumAmounts (es : List Expense) : Pyf :=
  es.foldl (fun s e => pyfAdd s e.amount) (.finite 0)

/-- `categories[cat] += amount` on a `defaultdict(float)`: an existing key is
updated in place, a missing key is appended with value `0.0 + amount`
(insertion order preserved, as Python dicts do). -/
def upsertCat : List (String × Pyf) → String → Pyf → List (String × Pyf)
  | [], c, a => [(c, pyfAdd (.finite 0) a)]
  | (k, v) :: rest, c, a =>
    if k = c then (k, pyfAdd v a) :: rest else (k, v) :: upsertCat rest c a

/-- The per-category accumulation loop of `generate_summary`. -/
def catFold (es : List Expense) : List (String × Pyf) :=
  es.foldl (fun m e => upsertCat m e.category e.amount) []

/-- The dictionary returned by `ReportGenerator.generate_summary`. -/
structure Summary where
  total : Pyf
  count : ℕ
  average : Pyf
  categories : List (String × Pyf)
deriving DecidableEq, Repr

/-- `ReportGenerator.generate_summary`. -/
def generate_summary (es : List Expense) : Summary :=
  if es.isEmpty then ⟨.finite 0, 0, .finite 0, []⟩
  else ⟨sumAmounts es, es.length, pyfDiv (sumAmounts es) (.finite es.length), catFold es⟩

/-- Stable insertion of an expense into a list sorted descending by amount:
the inserted element moves past exactly the elements whose amount compares
strictly greater (so among equal amounts the earlier original element stays
first). -/
def insDesc (e : Expense) : List Expense → List Expense
  | [] => [e]
  | x :: xs => if pyfLt e.amount x.amount then x :: insDesc e xs else e :: x :: xs

/-- `sorted(expenses, key=lambda x: x.amount, reverse=True)`: CPython's
timsort with `reverse=True` is the stable descending sort, which for a total
key order equals this insertion sort. -/
def sortDescAmount : List Expense → List Expense
  | [] => []
  | e :: es => insDesc e (sortDescAmount es)

/-- Python's `l[:n]`: a nonnegative stop takes a prefix, a negative stop drops
the last `|n|` elements. -/
def pySliceTo {α : Type} (l : List α) (n : ℤ) : List α :=
  if 0 ≤ n then l.take n.toNat else l.take (l.length - (-n).toNat)

/-- `ReportGenerator.get_top_expenses`. -/
def get_top_expenses (es : List Expense) (n : ℤ) : List Expense :=
  pySliceTo (sortDescAmount es) n

/-- The conjunction of `search_expenses`' four optional criteria applied to
one expense. -/
def searchPred (keyword category start_date end_date : String) (e : Expense) : Bool :=
  (if keyword = "" then true else pyContains (pyLower keyword) (pyLower e.description)) &&
  (if category = "" then true else e.category == category) &&
  (if start_date = "" then true else pyStrLe start_date e.date) &&
  (if end_date = "" then true else pyStrLe e.date end_date)

/-- `ReportGenerator.search_expenses`: four successive filters, each applied
only when its criterion (a string) is non-empty/truthy. -/
def search_expenses (es : List Expense)
    (keyword category start_date end_date : String) : List Expense :=
  let r1 := if keyword = "" then es else
    es.filter (fun e => pyContains (pyLower keyword) (pyLower e.description))
  let r2 := if category = "" then r1 else r1.filter (fun e => e.category == category)
  let r3 := if start_date = "" then r2 else r2.filter (fun e => pyStrLe start_date e.date)
  if end_date = "" then r3 else r3.filter (fun e => pyStrLe e.date end_date)

/-! ## Spec-side auxiliary definitions -/

/-- Spec-side predicate (from the specification's words, for comparison with
the code's date validation): exact compliance with the zero-padded
`YYYY-MM-DD` calendar format — four digit year, two digit month `01`–`12`,
two digit day in range for the month. -/
def isZeroPaddedDate (s : String) : Bool :=
  match s.data with
  | [y1, y2, y3, y4, '-', m1, m2, '-', d1, d2] =>
    allDigits [y1, y2, y3, y4, m1, m2, d1, d2] &&
    (let y := digitsVal [y1, y2, y3, y4]
     let m := digitsVal [m1, m2]
     let d := digitsVal [d1, d2]
     decide (1 ≤ y) && decide (1 ≤ m) && decide (m ≤ 12) &&
     decide (1 ≤ d) && decide (d ≤ daysInMonth y m))
  | _ => false

/-! ## Claim C9: restore of a missing backup -/

/-- Claim C9: for every backup name that does not exist in the backup
directory, `restore_from_backup` fails with a `BackupNotFound` failure result
(returns `false`, no crash) and leaves the primary file's contents
unchanged. -/
theorem C9_restore_missing (st : Store) (name : String)
    (h : alookup st.backups name = none) :
    restore_from_backup st name = (false, st) ∧
    (restore_from_backup st name).2.primary = st.primary := by
  unfold restore_from_backup
  rw [h]
  exact ⟨rfl, rfl⟩

/-- Witness for C9 at a concrete store and a name absent from its backup
directory. -/
theorem C9_restore_missing_witness :
    alookup (Store.mk (some "2024-01-01,Food,5.0,x")
      [("expenses_backup_20240101_000000.csv", "old")]).backups "nonexistent.csv" = none ∧
    restore_from_backup
      (Store.mk (some "2024-01-01,Food,5.0,x")
        [("expenses_backup_20240101_000000.csv", "old")]) "nonexistent.csv" =
      (false, Store.mk (some "2024-01-01,Food,5.0,x")
        [("expenses_backup_20240101_000000.csv", "old")]) :=
  ⟨by rfl,
   (C9_restore_missing
     (Store.mk (some "2024-01-01,Food,5.0,x")
       [("expenses_backup_20240101_000000.csv", "old")]) "nonexistent.csv" (by rfl)).1⟩

/-! ## Claim C10: non-finite amounts are accepted -/

/-- Claim C10: the amount inputs `"nan"` and `"inf"` parse as non-finite
floats, pass the `amt <= 0` check (which is false for NaN and for +infinity),
and yield a successfully constructed `Expense` storing a non-finite amount. -/
theorem C10_nonfinite_amounts :
    pyParseFloat "nan" = some .nan ∧
    pyParseFloat "inf" = some .inf ∧
    pyfLe .nan (.finite 0) = false ∧
    pyfLe .inf (.finite 0) = false ∧
    validate_amount (some "nan") = .ok .nan ∧
    validate_amount (some "inf") = .ok .inf ∧
    Pyf.isFinite .nan = false ∧
    Pyf.isFinite .inf = false ∧
    mkExpense (some "nan") "Food" "2024-01-01" "d" =
      .ok ⟨.nan, "Food", "2024-01-01", "d"⟩ := by
  refine ⟨?_, ?_, rfl, rfl, ?_, ?_, rfl, rfl, ?_⟩ <;> with_unfolding_all rfl

/-! ## Counterexamples to claims C1–C4 and C8 as stated -/

/-- Counterexample to claim C1 as stated: the expense constructed from amount
`"0.001"` is validly constructed (`0.001 > 0`), but its stored amount rounds
to `0.0`, so the saved row fails the load-time `amt <= 0` check and is
dropped: `load(save(E)) = [] ≠ E`. -/
theorem C1_counterexample :
    mkExpense (some "0.001") "Food" "2024-01-01" "x" =
      .ok ⟨.finite 0, "Food", "2024-01-01", "x"⟩ ∧
    load_expenses (some (save_expenses [⟨.finite 0, "Food", "2024-01-01", "x"⟩])) = [] ∧
    ([] : List Expense) ≠ [⟨.finite 0, "Food", "2024-01-01", "x"⟩] :=
  ⟨by with_unfolding_all rfl, by with_unfolding_all rfl, by simp⟩

/-- Counterexample to claim C2 as stated: `"2024-1-01"` does not comply with
the zero-padded `YYYY-MM-DD` format, yet `strptime`-based validation accepts
it (and stores it unchanged), so acceptance is not equivalent to zero-padded
compliance. -/
theorem C2_counterexample :
    validate_date "2024-1-01" = .ok "2024-1-01" ∧
    isZeroPaddedDate "2024-1-01" = false :=
  ⟨by with_unfolding_all rfl, by rfl⟩

/-- Counterexample to claim C3 as stated: for `n = -1 ≤ 0` the result is not
the empty sequence — Python's `[:n]` slice with a negative bound drops the
last `|n|` elements of the sorted list instead. -/
theorem C3_counterexample :
    get_top_expenses
      [⟨.finite 1, "Food", "2024-01-01", "a"⟩, ⟨.finite 2, "Food", "2024-01-02", "b"⟩]
      (-1) = [⟨.finite 2, "Food", "2024-01-02", "b"⟩] ∧
    (-1 : ℤ) ≤ 0 ∧
    [Expense.mk (.finite 2) "Food" "2024-01-02" "b"] ≠ [] :=
  ⟨by with_unfolding_all rfl, by decide, by simp⟩

/-- Counterexample to claim C4 as stated: `"nan"` parses as a number and is
not `> 0` (NaN compares false), yet amount validation succeeds, so success is
not equivalent to "parses and is `> 0`". -/
theorem C4_counterexample :
    pyParseFloat "nan" = some .nan ∧
    pyfLt (.finite 0) .nan = false ∧
    validate_amount (some "nan") = .ok .nan :=
  ⟨by with_unfolding_all rfl, rfl, by with_unfolding_all rfl⟩

/-- Counterexample to claim C8 as stated: a row with a missing `Description`
field raises `AttributeError` (`None.strip()`), which the per-row
`except ValueError` does not catch; the outer handler aborts the loop, so the
following row — valid, as the first conjunct shows — is lost rather than
kept. -/
theorem C8_counterexample :
    loadRow stdHeader ["2024-01-02", "Food", "6", "ok"] =
      .rok ⟨.finite 6, "Food", "2024-01-02", "ok"⟩ ∧
    load_expenses
      (some [stdHeader, ["2024-01-01", "Food", "5"], ["2024-01-02", "Food", "6", "ok"]]) = [] :=
  ⟨by with_unfolding_all rfl, by with_unfolding_all rfl⟩

/-! ## Claim C7: search is a conjunctive order-preserving filter -/

/-- Composing two filters is filtering by the conjunction. -/
theorem filter_and {α : Type} (p q : α → Bool) (l : List α) :
    (l.filter p).filter q = l.filter (fun a => p a && q a) := by
  induction l with
  | nil => rfl
  | cons x xs ih =>
    by_cases hp : p x <;> by_cases hq : q x <;>
      simp [List.filter_cons, hp, hq, ih]

/-- Claim C7: `search_expenses` applies each criterion only when non-empty
and composes them with logical AND (case-insensitive substring on the
description, exact match on the stored category, inclusive lexicographic
comparison on the date string); an expense is in the result exactly when it
satisfies every supplied criterion, and the result is a sublist of the input
(original relative order preserved). -/
theorem C7_search (es : List Expense) (keyword category start_date end_date : String) :
    search_expenses es keyword category start_date end_date =
      es.filter (searchPred keyword category start_date end_date) ∧
    (search_expenses es keyword category start_date end_date).Sublist es ∧
    ∀ e, e ∈ search_expenses es keyword category start_date end_date ↔
      e ∈ es ∧ searchPred keyword category start_date end_date e = true := by
  have hmain : search_expenses es keyword category start_date end_date =
      es.filter (searchPred keyword category start_date end_date) := by
    unfold search_expenses
    split_ifs <;>
      simp only [filter_and] <;>
      first
      | (symm; apply List.filter_eq_self.mpr;
         intro a _; simp_all [searchPred])
      | (apply List.filter_congr;
         intro a _; simp_all [searchPred, Bool.and_assoc])
  refine ⟨hmain, ?_, ?_⟩
  · rw [hmain]; exact List.filter_sublist es
  · intro e; rw [hmain]; simp [List.mem_filter]

/-! ## Claim C6: summary statistics -/

/-- Left fold of amounts starting from a given accumulator. -/
def catSumFrom (v : Pyf) (l : List Expense) : Pyf :=
  l.foldl (fun s e => pyfAdd s e.amount) v

/-- Updating a key leaves lookups of that key at the updated value. -/
theorem alookup_upsertCat_same (m : List (String × Pyf)) (c : String) (a : Pyf) :
    alookup (upsertCat m c a) c =
      some (pyfAdd ((alookup m c).getD (.finite 0)) a) := by
  induction m with
  | nil => simp [upsertCat, alookup]
  | cons kv rest ih =>
    obtain ⟨k, v⟩ := kv
    by_cases hk : k = c
    · subst hk; simp [upsertCat, alookup]
    · simp [upsertCat, alookup, hk, ih]

/-- Updating one key does not change lookups of another. -/
theorem alookup_upsertCat_other (m : List (String × Pyf)) (c' c : String) (a : Pyf)
    (h : c' ≠ c) : alookup (upsertCat m c' a) c = alookup m c := by
  induction m with
  | nil => simp [upsertCat, alookup, h]
  | cons kv rest ih =>
    obtain ⟨k, v⟩ := kv
    by_cases hk : k = c'
    · subst hk; simp [upsertCat, alookup, h]
    · by_cases hkc : k = c <;> simp [upsertCat, alookup, hk, hkc, ih, Ne.symm h]

/-- If a key is already present, the category fold accumulates onto its value
exactly the amounts of the expenses in that category, in order. -/
theorem catFold_lookup_some (es : List Expense) :
    ∀ (m : List (String × Pyf)) (c : String) (v : Pyf), alookup m c = some v →
    alookup (es.foldl (fun m e => upsertCat m e.category e.amount) m) c =
      some (catSumFrom v (es.filter (fun e => e.category == c))) := by
  induction es with
  | nil => intro m c v h; simpa [catSumFrom] using h
  | cons e rest ih =>
    intro m c v h
    by_cases hc : e.category = c
    · have hstep : alookup (upsertCat m e.category e.amount) c =
          some (pyfAdd v e.amount) := by
        rw [hc, alookup_upsertCat_same, h]; rfl
      simpa [List.foldl_cons, List.filter_cons, hc, catSumFrom]
        using ih (upsertCat m e.category e.amount) c (pyfAdd v e.amount) hstep
    · have hstep : alookup (upsertCat m e.category e.amount) c = some v := by
        rw [alookup_upsertCat_other _ _ _ _ hc, h]
      simpa [List.foldl_cons, List.filter_cons, hc]
        using ih (upsertCat m e.category e.amount) c v hstep

/-- If a key is absent, the category fold produces it exactly when some
expense has that category, with value the ordered sum (from `0.0`) of the
amounts in that category. -/
theorem catFold_lookup_none (es : List Expense) :
    ∀ (m : List (String × Pyf)) (c : String), alookup m c = none →
    alookup (es.foldl (fun m e => upsertCat m e.category e.amount) m) c =
      (if (es.filter (fun e => e.category == c)).isEmpty then none
       else some (catSumFrom (.finite 0) (es.filter (fun e => e.category == c)))) := by
  induction es with
  | nil => intro m c h; simpa using h
  | cons e rest ih =>
    intro m c h
    by_cases hc : e.category = c
    · have hstep : alookup (upsertCat m e.category e.amount) c =
          some (pyfAdd (.finite 0) e.amount) := by
        rw [hc, alookup_upsertCat_same, h]; rfl
      simpa [List.foldl_cons, List.filter_cons, hc, catSumFrom]
        using catFold_lookup_some rest (upsertCat m e.category e.amount) c
          (pyfAdd (.finite 0) e.amount) hstep
    · have hstep : alookup (upsertCat m e.category e.amount) c = none := by
        rw [alookup_upsertCat_other _ _ _ _ hc, h]
      simpa [List.foldl_cons, List.filter_cons, hc]
        using ih (upsertCat m e.category e.amount) c hstep

/-- Claim C6: `generate_summary` returns the left-fold sum of the amounts as
`total`, the collection length as `count`, `total / count` as `average` with
`0` for the empty collection (no division by zero), and a category mapping
containing exactly the categories present, each mapped to the sum of the
amounts of that category; the empty collection yields zeros and an empty
mapping. -/
theorem C6_summary (es : List Expense) :
    (generate_summary es).total = sumAmounts es ∧
    (generate_summary es).count = es.length ∧
    (generate_summary es).average =
      (if es.length = 0 then .finite 0
       else pyfDiv (sumAmounts es) (.finite es.length)) ∧
    (∀ c, alookup (generate_summary es).categories c =
      (if (es.filter (fun e => e.category == c)).isEmpty then none
       else some (catSumFrom (.finite 0) (es.filter (fun e => e.category == c))))) ∧
    generate_summary [] = ⟨.finite 0, 0, .finite 0, []⟩ := by
  refine ⟨?_, ?_, ?_, ?_, rfl⟩
  · cases es <;> rfl
  · cases es <;> rfl
  · cases es <;> simp [generate_summary]
  · intro c
    cases es with
    | nil => rfl
    | cons e rest =>
      have h0 : alookup ([] : List (String × Pyf)) c = none := rfl
      simpa [generate_summary, catFold]
        using catFold_lookup_none (e :: rest) [] c h0

/-! ## Claim C3: top-N expenses -/

/-- Strict comparison implies inequality (no float is less than itself). -/
theorem pyfLt_ne {a b : Pyf} (h : pyfLt a b = true) : a ≠ b := by
  cases a <;> cases b <;> simp_all [pyfLt]
  exact ne_of_lt h

/-- Strict implies non-strict comparison. -/
theorem pyfLe_of_lt {a b : Pyf} (h : pyfLt a b = true) : pyfLe a b = true := by
  cases a <;> cases b <;> simp_all [pyfLt, pyfLe]
  exact le_of_lt h

/-- On finite floats the comparisons are total: if `a < b` is false then
`b <= a`. -/
theorem pyfLe_of_not_lt {a b : Pyf} (ha : a.isFinite = true) (hb : b.isFinite = true)
    (h : pyfLt a b = false) : pyfLe b a = true := by
  cases a <;> cases b <;> simp_all [Pyf.isFinite, pyfLt, pyfLe]

/-- Non-strict comparison is transitive on finite floats. -/
theorem pyfLe_trans_fin {a b c : Pyf} (ha : a.isFinite = true) (hb : b.isFinite = true)
    (hc : c.isFinite = true) (h1 : pyfLe a b = true) (h2 : pyfLe b c = true) :
    pyfLe a c = true := by
  cases a <;> cases b <;> cases c <;> simp_all [Pyf.isFinite, pyfLe]
  exact le_trans h1 h2

/-- Membership in a stable insertion. -/
theorem mem_insDesc {a e : Expense} {l : List Expense} :
    a ∈ insDesc e l ↔ a = e ∨ a ∈ l := by
  induction l with
  | nil => simp [insDesc]
  | cons x xs ih =>
    by_cases h : pyfLt e.amount x.amount
    · simp only [insDesc, h, if_pos, List.mem_cons, ih]
      tauto
    · simp [insDesc, h]

/-- Stable insertion permutes the cons. -/
theorem insDesc_perm (e : Expense) (l : List Expense) : List.Perm (insDesc e l) (e :: l) := by
  induction l with
  | nil => rfl
  | cons x xs ih =>
    by_cases h : pyfLt e.amount x.amount
    · simp only [insDesc, h, if_pos]
      exact (ih.cons x).trans (List.Perm.swap e x xs)
    · simp [insDesc, h]

/-- The embedded sort is a permutation of its input. -/
theorem sortDescAmount_perm (es : List Expense) : List.Perm (sortDescAmount es) es := by
  induction es with
  | nil => rfl
  | cons e rest ih => exact (insDesc_perm e (sortDescAmount rest)).trans (ih.cons e)

/-- Inserting into a descending-pairwise list of finite-amount expenses
preserves the descending pairwise order. -/
theorem pairwise_insDesc {e : Expense} {l : List Expense}
    (hfe : e.amount.isFinite = true) (hfl : ∀ x ∈ l, x.amount.isFinite = true)
    (hp : l.Pairwise (fun a b => pyfLe b.amount a.amount = true)) :
    (insDesc e l).Pairwise (fun a b => pyfLe b.amount a.amount = true) := by
  induction l with
  | nil => simp [insDesc]
  | cons x xs ih =>
    rcases List.pairwise_cons.mp hp with ⟨hx, hxs⟩
    by_cases h : pyfLt e.amount x.amount
    · simp only [insDesc, h, if_pos]
      refine List.pairwise_cons.mpr ⟨?_, ?_⟩
      · intro y hy
        rcases mem_insDesc.mp hy with rfl | hy'
        · exact pyfLe_of_lt h
        · exact hx y hy'
      · exact ih (fun z hz => hfl z (List.mem_cons_of_mem x hz)) hxs
    · simp only [insDesc, h, if_neg, Bool.not_eq_true]
      refine List.pairwise_cons.mpr ⟨?_, hp⟩
      intro y hy
      have hxe : pyfLe x.amount e.amount = true :=
        pyfLe_of_not_lt hfe (hfl x (List.mem_cons_self x xs)) (by simpa using h)
      rcases List.mem_cons.mp hy with rfl | hy'
      · exact hxe
      · exact pyfLe_trans_fin (hfl y (List.mem_cons_of_mem x hy'))
          (hfl x (List.mem_cons_self x xs)) hfe (hx y hy') hxe

/-- The embedded sort of finite-amount expenses is descending by amount. -/
theorem sortDescAmount_pairwise (es : List Expense)
    (hfin : ∀ e ∈ es, e.amount.isFinite = true) :
    (sortDescAmount es).Pairwise (fun a b => pyfLe b.amount a.amount = true) := by
  induction es with
  | nil => simp [sortDescAmount]
  | cons e rest ih =>
    have hmem : ∀ x ∈ sortDescAmount rest, x.amount.isFinite = true := fun x hx =>
      hfin x (List.mem_cons_of_mem e ((sortDescAmount_perm rest).mem_iff.mp hx))
    exact pairwise_insDesc (hfin e (List.mem_cons_self e rest)) hmem
      (ih fun x hx => hfin x (List.mem_cons_of_mem e hx))

/-- Stability of the insertion, expressed through filters: the expenses of
any fixed amount appear in the same order as before the insertion, with the
inserted element first when it has that amount. -/
theorem filter_insDesc (q : Pyf) (e : Expense) (l : List Expense) :
    (insDesc e l).filter (fun x => decide (x.amount = q)) =
      (if e.amount = q then [e] else []) ++ l.filter (fun x => decide (x.amount = q)) := by
  induction l with
  | nil => by_cases h : e.amount = q <;> simp [insDesc, h]
  | cons x xs ih =>
    by_cases h : pyfLt e.amount x.amount
    · rw [show insDesc e (x :: xs) = x :: insDesc e xs from by simp [insDesc, h]]
      by_cases hx : x.amount = q
      · have hne : e.amount ≠ q := fun he => pyfLt_ne h (by rw [he, hx])
        simp [List.filter_cons, hx, hne, ih]
      · simp [List.filter_cons, hx, ih]
    · rw [show insDesc e (x :: xs) = e :: x :: xs from by simp [insDesc, h]]
      by_cases he : e.amount = q <;> by_cases hx : x.amount = q <;>
        simp [List.filter_cons, he, hx]

/-- Stability of the embedded sort: for every amount value, filtering the
sorted list to that amount gives exactly the original subsequence (ties keep
their original relative order). -/
theorem sortDescAmount_stable (es : List Expense) (q : Pyf) :
    (sortDescAmount es).filter (fun x => decide (x.amount = q)) =
      es.filter (fun x => decide (x.amount = q)) := by
  induction es with
  | nil => rfl
  | cons e rest ih =>
    by_cases he : e.amount = q <;>
      simp [sortDescAmount, filter_insDesc, List.filter_cons, he, ih]

/-- Claim C3 (amended): over expenses with finite (comparable) amounts,
`get_top_expenses` slices the stable descending sort with Python's `[:n]`
semantics: the sorted list is a permutation of the input, descending by
amount, with ties in original relative order (filter-stability); for
`0 ≤ n` the result is the first `n` of it (so `n = 0` yields `[]`, `n ≥
length` yields the whole collection, and every returned expense's amount
dominates every dropped one).  For `n < 0` Python's slice drops the last
`|n|` elements instead of returning `[]` (see the counterexample). -/
theorem C3_top (es : List Expense) (n : ℤ)
    (hfin : ∀ e ∈ es, e.amount.isFinite = true) :
    List.Perm (sortDescAmount es) es ∧
    (sortDescAmount es).Pairwise (fun a b => pyfLe b.amount a.amount = true) ∧
    (∀ q : Pyf, (sortDescAmount es).filter (fun x => decide (x.amount = q)) =
      es.filter (fun x => decide (x.amount = q))) ∧
    (0 ≤ n → get_top_expenses es n = (sortDescAmount es).take n.toNat) ∧
    (n = 0 → get_top_expenses es n = []) ∧
    ((es.length : ℤ) ≤ n → List.Perm (get_top_expenses es n) es) ∧
    (0 ≤ n → ∀ x ∈ get_top_expenses es n, ∀ y ∈ (sortDescAmount es).drop n.toNat,
      pyfLe y.amount x.amount = true) := by
  have hperm := sortDescAmount_perm es
  have hpair := sortDescAmount_pairwise es hfin
  have htake : ∀ m : ℤ, 0 ≤ m →
      get_top_expenses es m = (sortDescAmount es).take m.toNat := by
    intro m hm
    unfold get_top_expenses pySliceTo
    rw [if_pos hm]
  refine ⟨hperm, hpair, sortDescAmount_stable es, htake n, ?_, ?_, ?_⟩
  · rintro rfl
    simp [htake 0 le_rfl]
  · intro hlen
    have hn : 0 ≤ n := le_trans (Int.ofNat_nonneg es.length) hlen
    have hlen2 : (sortDescAmount es).length ≤ n.toNat := by
      rw [hperm.length_eq]; omega
    rw [htake n hn, List.take_of_length_le hlen2]
    exact hperm
  · intro hn x hx y hy
    have hsplit := hpair
    rw [← List.take_append_drop n.toNat (sortDescAmount es)] at hsplit
    rcases List.pairwise_append.mp hsplit with ⟨-, -, hcross⟩
    rw [htake n hn] at hx
    exact hcross x hx y hy

/-- Witness for C3 at the specification's own example: amounts
`[50, 500, 10, 500]` with `n = 2` return the two `500`s, tied pair in
original relative order. -/
theorem C3_top_witness :
    get_top_expenses
      [⟨.finite 50, "Food", "2024-01-01", "a"⟩, ⟨.finite 500, "Food", "2024-01-02", "b"⟩,
       ⟨.finite 10, "Food", "2024-01-03", "c"⟩, ⟨.finite 500, "Food", "2024-01-04", "e"⟩] 2 =
      (sortDescAmount
        [⟨.finite 50, "Food", "2024-01-01", "a"⟩, ⟨.finite 500, "Food", "2024-01-02", "b"⟩,
         ⟨.finite 10, "Food", "2024-01-03", "c"⟩, ⟨.finite 500, "Food", "2024-01-04", "e"⟩]).take 2 ∧
    get_top_expenses
      [⟨.finite 50, "Food", "2024-01-01", "a"⟩, ⟨.finite 500, "Food", "2024-01-02", "b"⟩,
       ⟨.finite 10, "Food", "2024-01-03", "c"⟩, ⟨.finite 500, "Food", "2024-01-04", "e"⟩] 2 =
      [⟨.finite 500, "Food", "2024-01-02", "b"⟩, ⟨.finite 500, "Food", "2024-01-04", "e"⟩] := by
  refine ⟨(C3_top _ 2 ?_).2.2.2.1 (by decide), by with_unfolding_all rfl⟩
  intro e he
  fin_cases he <;> rfl

/-! ## Claims C4 and C5: amount and category validation -/

/-- Claim C4 (amended): constructing succeeds for an amount input exactly
when it is present and parses as a number for which the check `amt <= 0`
evaluates to false — that is, all strictly positive values, and also NaN and
+infinity, for which the IEEE comparison is false; the stored amount is the
parsed value rounded to 2 decimal places, and every failure is
`InvalidAmount`. -/
theorem C4_amount (a : Option String) :
    ((∃ v, validate_amount a = .ok v) ↔
      (∃ s x, a = some s ∧ pyParseFloat s = some x ∧ pyfLe x (.finite 0) = false)) ∧
    (∀ s x, a = some s → pyParseFloat s = some x → pyfLe x (.finite 0) = false →
      validate_amount a = .ok (round2 x)) ∧
    ((∃ v, validate_amount a = .ok v) ∨ validate_amount a = .error .invalidAmount) := by
  rcases a with _ | s
  · refine ⟨?_, ?_, Or.inr rfl⟩
    · constructor
      · rintro ⟨v, hv⟩; cases hv
      · rintro ⟨s, x, h, -, -⟩; cases h
    · rintro s x h; cases h
  · rcases hp : pyParseFloat s with _ | x
    · refine ⟨?_, ?_, Or.inr (by simp [validate_amount, hp])⟩
      · constructor
        · rintro ⟨v, hv⟩; simp [validate_amount, hp] at hv
        · rintro ⟨s', x, hs, hx, -⟩; cases hs; rw [hp] at hx; cases hx
      · rintro s' x hs hx h0; cases hs; rw [hp] at hx; cases hx
    · by_cases hle : pyfLe x (.finite 0) = true
      · refine ⟨?_, ?_, Or.inr (by simp [validate_amount, hp, hle])⟩
        · constructor
          · rintro ⟨v, hv⟩; simp [validate_amount, hp, hle] at hv
          · rintro ⟨s', x', hs, hx, hfalse⟩; cases hs; rw [hp] at hx; cases hx
            rw [hle] at hfalse; cases hfalse
        · rintro s' x' hs hx hfalse; cases hs; rw [hp] at hx; cases hx
          rw [hle] at hfalse; cases hfalse
      · have hok : validate_amount (some s) = .ok (round2 x) := by
          simp [validate_amount, hp, hle]
        refine ⟨?_, ?_, Or.inl ⟨round2 x, hok⟩⟩
        · exact iff_of_true ⟨round2 x, hok⟩ ⟨s, x, rfl, hp, by simpa using hle⟩
        · rintro s' x' hs hx h0; cases hs; rw [hp] at hx; cases hx; exact hok

/-- Witness for C4 at the concrete input `"2.5"`: validation succeeds and
stores the rounded parsed value, `2.5` itself. -/
theorem C4_amount_witness :
    validate_amount (some "2.5") = .ok (round2 (.finite (mkRat 5 2))) ∧
    validate_amount (some "2.5") = .ok (.finite (mkRat 5 2)) := by
  have hp : pyParseFloat "2.5" = some (.finite (mkRat 5 2)) := by with_unfolding_all rfl
  exact ⟨(C4_amount (some "2.5")).2.1 "2.5" (.finite (mkRat 5 2)) rfl hp
           (by with_unfolding_all rfl),
         by with_unfolding_all rfl⟩

/-- Claim C5: category validation first trims and title-cases the input,
succeeds exactly when the normalized string is one of the 8 categories
(storing the normalized value), and — once amount validation has passed — a
construction whose normalized category is outside the enumeration fails with
`InvalidCategory`. -/
theorem C5_category (c : String) :
    ((∃ v, validate_category c = .ok v) ↔ pyTitle (pyStrip c) ∈ CATEGORIES) ∧
    (∀ v, validate_category c = .ok v → v = pyTitle (pyStrip c)) ∧
    (pyTitle (pyStrip c) ∉ CATEGORIES →
      ∀ (a : Option String) (d ds : String) (amt : Pyf), validate_amount a = .ok amt →
        mkExpense a c d ds = .error .invalidCategory) := by
  by_cases h : pyTitle (pyStrip c) ∈ CATEGORIES
  · exact ⟨by simp [validate_category, h], by simp [validate_category, h],
      fun hn => absurd h hn⟩
  · refine ⟨by simp [validate_category, h], by simp [validate_category, h], ?_⟩
    intro _ a d ds amt ha
    have hc : validate_category c = .error .invalidCategory := by
      simp [validate_category, h]
    unfold mkExpense
    rw [ha, hc]

/-- Witness for C5 at concrete inputs: `"  food "` normalizes into the
enumeration and is stored normalized, while `" xyz "` is rejected with
`InvalidCategory` by the constructor once the amount has validated. -/
theorem C5_category_witness :
    validate_category "  food " = .ok "Food" ∧
    mkExpense (some "5") " xyz " "2024-01-01" "d" = .error .invalidCategory := by
  constructor
  · with_unfolding_all rfl
  · exact (C5_category " xyz ").2.2 (by decide) (some "5") "2024-01-01" "d"
      (.finite 5) (by with_unfolding_all rfl)

/-! ## Claim C8: load skips invalid rows -/

/-- The expense produced by one row, if the row neither skips nor aborts. -/
def rowOk (hdr : List String) (r : List String) : Option Expense :=
  match loadRow hdr r with
  | .rok e => some e
  | _ => none

/-- Claim C8 (amended): an absent file loads as the empty collection, and for
every file none of whose rows raises outside `ValueError`, the load keeps
exactly the successfully constructed expenses in order, skipping the rows
that fail validation — the loop never aborts.  (A row that raises a
non-`ValueError` — e.g. a short row whose missing field surfaces as `None` —
aborts the remaining rows; see the counterexample.) -/
theorem C8_load :
    load_expenses none = [] ∧
    ∀ (hdr : List String) (rows : List (List String)),
      (∀ r ∈ rows, loadRow hdr r ≠ .rabort) →
      load_expenses (some (hdr :: rows)) = rows.filterMap (rowOk hdr) := by
  refine ⟨rfl, ?_⟩
  intro hdr rows h
  show loadRows hdr rows = rows.filterMap (rowOk hdr)
  induction rows with
  | nil => rfl
  | cons r rs ih =>
    have htail := ih fun r' hr' => h r' (List.mem_cons_of_mem r hr')
    cases hout : loadRow hdr r with
    | rok e => simp [loadRows, hout, List.filterMap_cons, rowOk, htail]
    | rskip => simp [loadRows, hout, List.filterMap_cons, rowOk, htail]
    | rabort => exact absurd hout (h r (List.mem_cons_self r rs))

/-- Witness for C8 at a concrete file: the first row fails amount validation
(`-2 <= 0`, a `ValueError`) and is skipped, while the second row is kept. -/
theorem C8_load_witness :
    (∀ r ∈ [["2024-01-01", "Food", "-2", "bad"], ["2024-01-02", "Food", "6", "ok"]],
      loadRow stdHeader r ≠ .rabort) ∧
    load_expenses (some (stdHeader ::
        [["2024-01-01", "Food", "-2", "bad"], ["2024-01-02", "Food", "6", "ok"]])) =
      [⟨.finite 6, "Food", "2024-01-02", "ok"⟩] := by
  have hh : ∀ r ∈ [["2024-01-01", "Food", "-2", "bad"], ["2024-01-02", "Food", "6", "ok"]],
      loadRow stdHeader r ≠ .rabort := by with_unfolding_all decide
  refine ⟨hh, ?_⟩
  rw [C8_load.2 stdHeader _ hh]
  with_unfolding_all rfl

/-! ## Claim C2: date validation -/

/-- `takeWhile` stops exactly at the first failing element. -/
theorem takeWhile_append_eq {α : Type} (p : α → Bool) (xs : List α) (y : α) (ys : List α)
    (hxs : ∀ x ∈ xs, p x = true) (hy : p y = false) :
    (xs ++ y :: ys).takeWhile p = xs := by
  induction xs with
  | nil => simp [List.takeWhile_cons, hy]
  | cons a as ih =>
    have ha := hxs a (List.mem_cons_self a as)
    simp [List.takeWhile_cons, ha, ih fun x hx => hxs x (List.mem_cons_of_mem a hx)]

/-- `dropWhile` resumes exactly at the first failing element. -/
theorem dropWhile_append_eq {α : Type} (p : α → Bool) (xs : List α) (y : α) (ys : List α)
    (hxs : ∀ x ∈ xs, p x = true) (hy : p y = false) :
    (xs ++ y :: ys).dropWhile p = y :: ys := by
  induction xs with
  | nil => simp [List.dropWhile_cons, hy]
  | cons a as ih =>
    have ha := hxs a (List.mem_cons_self a as)
    simp [List.dropWhile_cons, ha, ih fun x hx => hxs x (List.mem_cons_of_mem a hx)]

/-- The head that `dropWhile` stops at fails the predicate. -/
theorem dropWhile_head_false {α : Type} (p : α → Bool) (l : List α) {c : α} {rest : List α}
    (h : l.dropWhile p = c :: rest) : p c = false := by
  induction l with
  | nil => cases h
  | cons a as ih =>
    by_cases hp : p a = true
    · rw [List.dropWhile_cons, if_pos hp] at h
      exact ih h
    · rw [List.dropWhile_cons, if_neg hp] at h
      cases h
      simpa using hp

/-- Every element kept by `takeWhile` satisfies the predicate. -/
theorem all_takeWhile {α : Type} (p : α → Bool) (l : List α) :
    (l.takeWhile p).all p = true := by
  induction l with
  | nil => rfl
  | cons a as ih =>
    by_cases hp : p a = true <;> simp [List.takeWhile_cons, hp, ih]

/-- An ASCII digit is not a dash. -/
theorem isDigitB_ne_dash {c : Char} (h : isDigitB c = true) : (c != '-') = true := by
  rw [bne_iff_ne]
  rintro rfl
  exact absurd h (by decide)

/-- Digit runs contain no dash. -/
theorem allDigits_no_dash {l : List Char} (h : allDigits l = true) :
    ∀ x ∈ l, (x != '-') = true := by
  intro x hx
  exact isDigitB_ne_dash (by simpa using List.all_eq_true.mp h x hx)

/-- Characterization of `splitDashes`: it succeeds exactly on the unique
decomposition of the string at its two dashes into dash-free components. -/
theorem splitDashes_eq_some (l ys ms ds : List Char) :
    splitDashes l = some (ys, ms, ds) ↔
      (l = ys ++ '-' :: (ms ++ '-' :: ds) ∧
       ys.all (fun c => c != '-') = true ∧
       ms.all (fun c => c != '-') = true ∧
       ds.all (fun c => c != '-') = true) := by
  constructor
  · intro h
    unfold splitDashes at h
    rcases hd1 : l.dropWhile (fun c => c != '-') with _ | ⟨c1, l2⟩
    · rw [hd1] at h; exact absurd h (by simp)
    · rw [hd1] at h
      dsimp only at h
      have hc1 : c1 = '-' := by
        have := dropWhile_head_false _ l hd1
        simpa using this
      rcases hd2 : l2.dropWhile (fun c => c != '-') with _ | ⟨c2, ds'⟩
      · rw [hd2] at h; exact absurd h (by simp)
      · rw [hd2] at h
        dsimp only at h
        have hc2 : c2 = '-' := by
          have := dropWhile_head_false _ l2 hd2
          simpa using this
        by_cases hall : ds'.all (fun c => c != '-') = true
        · rw [if_pos hall] at h
          injection h with h'
          obtain ⟨rfl, rfl, rfl⟩ : l.takeWhile (fun c => c != '-') = ys ∧
              l2.takeWhile (fun c => c != '-') = ms ∧ ds' = ds := by
            have h1 := congrArg Prod.fst h'
            have h2 := congrArg (fun t => t.2.1) h'
            have h3 := congrArg (fun t => t.2.2) h'
            exact ⟨h1, h2, h3⟩
          refine ⟨?_, all_takeWhile _ l, all_takeWhile _ l2, hall⟩
          have e1 : l.takeWhile (fun c => c != '-') ++
              l.dropWhile (fun c => c != '-') = l :=
            List.takeWhile_append_dropWhile _ _
          have e2 : l2.takeWhile (fun c => c != '-') ++
              l2.dropWhile (fun c => c != '-') = l2 :=
            List.takeWhile_append_dropWhile _ _
          rw [hd1, hc1] at e1
          rw [hd2, hc2] at e2
          rw [← e2] at e1
          exact e1.symm
        · rw [if_neg hall] at h; cases h
  · rintro ⟨rfl, hys, hms, hds⟩
    have hysm : ∀ x ∈ ys, (x != '-') = true := fun x hx => List.all_eq_true.mp hys x hx
    have hmsm : ∀ x ∈ ms, (x != '-') = true := fun x hx => List.all_eq_true.mp hms x hx
    have hdash : ((fun c => c != '-') '-') = false := by simp
    unfold splitDashes
    rw [dropWhile_append_eq _ ys '-' (ms ++ '-' :: ds) hysm hdash,
        takeWhile_append_eq _ ys '-' (ms ++ '-' :: ds) hysm hdash]
    dsimp only
    rw [dropWhile_append_eq _ ms '-' ds hmsm hdash,
        takeWhile_append_eq _ ms '-' ds hmsm hdash]
    dsimp only
    rw [if_pos hds]

/-- Declarative acceptance predicate for `%Y-%m-%d` parsing: the string is
`Y-M-D` with a four-digit year at least `0001`, month and day each one or two
digits, month `1..12`, and day within the month's length for that year. -/
def DateAccept (s : String) : Prop :=
  ∃ ys ms ds : List Char,
    s.data = ys ++ '-' :: (ms ++ '-' :: ds) ∧
    allDigits ys = true ∧ ys.length = 4 ∧ 1 ≤ digitsVal ys ∧
    allDigits ms = true ∧ (ms.length = 1 ∨ ms.length = 2) ∧
    1 ≤ digitsVal ms ∧ digitsVal ms ≤ 12 ∧
    allDigits ds = true ∧ (ds.length = 1 ∨ ds.length = 2) ∧
    1 ≤ digitsVal ds ∧ digitsVal ds ≤ daysInMonth (digitsVal ys) (digitsVal ms)

/-- Claim C2 (amended): date validation accepts a string — storing it
unchanged — exactly when it is `Y-M-D` with a four-digit year and one- or
two-digit month and day forming a valid calendar date (strptime's `%m`/`%d`
do not require zero padding); every other input fails with `InvalidDate`. -/
theorem C2_date_accept (s : String) :
    (validate_date s = .ok s ↔ DateAccept s) ∧
    (validate_date s = .ok s ∨ validate_date s = .error .invalidDate) := by
  have hor : validate_date s = .ok s ∨ validate_date s = .error .invalidDate := by
    unfold validate_date; split_ifs <;> simp
  refine ⟨⟨?_, ?_⟩, hor⟩
  · intro h
    unfold validate_date at h
    by_cases hs : (strptimeYmd s).isSome
    swap
    · rw [if_neg hs] at h; cases h
    · unfold strptimeYmd at hs
      rcases hsp : splitDashes s.data with _ | ⟨⟨ys, ms, ds⟩⟩
      · rw [hsp] at hs; simp at hs
      · rw [hsp] at hs
        dsimp only at hs
        split_ifs at hs with hcond
        · obtain ⟨heq, -, -, -⟩ := (splitDashes_eq_some s.data ys ms ds).mp hsp
          exact ⟨ys, ms, ds, heq, hcond⟩
        · simp at hs
  · rintro ⟨ys, ms, ds, heq, h1, h2, h3, h4, h5, h6, h7, h8, h9, h10, h11⟩
    have hsp : splitDashes s.data = some (ys, ms, ds) :=
      (splitDashes_eq_some _ _ _ _).mpr ⟨heq,
        List.all_eq_true.mpr (allDigits_no_dash h1),
        List.all_eq_true.mpr (allDigits_no_dash h4),
        List.all_eq_true.mpr (allDigits_no_dash h8)⟩
    have hsome : strptimeYmd s = some (digitsVal ys, digitsVal ms, digitsVal ds) := by
      unfold strptimeYmd
      rw [hsp]
      dsimp only
      rw [if_pos ⟨h1, h2, h3, h4, h5, h6, h7, h8, h9, h10, h11⟩]
    unfold validate_date
    rw [hsome]
    rfl

/-- Witness for C2 at `"2024-02-29"` (a leap-day date): it satisfies the
acceptance predicate and validation stores it unchanged. -/
theorem C2_date_accept_witness :
    DateAccept "2024-02-29" ∧ validate_date "2024-02-29" = .ok "2024-02-29" := by
  have hd : DateAccept "2024-02-29" :=
    ⟨['2', '0', '2', '4'], ['0', '2'], ['2', '9'], by rfl,
     by decide, by decide, by decide, by decide, by decide, by decide,
     by decide, by decide, by decide, by decide, by decide⟩
  exact ⟨hd, ((C2_date_accept "2024-02-29").1).mpr hd⟩

/-! ## Claim C1: the save/load round trip -/

/-- The character of a single decimal digit. -/
theorem digitChar_spec {d : ℕ} (hd : d < 10) :
    isDigitB (Char.ofNat (48 + d)) = true ∧ digitVal (Char.ofNat (48 + d)) = d := by
  interval_cases d <;> exact ⟨by decide, by decide⟩

/-- Decimal rendering produces only digits. -/
theorem natRender_allDigits (n : ℕ) : allDigits (natRender n) = true := by
  induction n using Nat.strong_induction_on with
  | _ n ih =>
    unfold natRender
    by_cases h : n < 10
    · simp [h, allDigits, (digitChar_spec h).1]
    · have hd : n % 10 < 10 := Nat.mod_lt n (by omega)
      rw [if_neg h]
      have h1 : allDigits (natRender (n / 10)) = true := ih (n / 10) (by omega)
      unfold allDigits at h1 ⊢
      rw [List.all_append]
      simp [h1, (digitChar_spec hd).1]

/-- Decimal rendering is never empty. -/
theorem natRender_ne_nil (n : ℕ) : natRender n ≠ [] := by
  unfold natRender
  by_cases h : n < 10 <;> simp [h]

/-- Appending one digit multiplies the value by ten and adds it. -/
theorem digitsVal_append_digit (l : List Char) (c : Char) :
    digitsVal (l ++ [c]) = 10 * digitsVal l + digitVal c := by
  unfold digitsVal
  rw [List.foldl_append]
  rfl

/-- Decimal rendering round-trips through evaluation. -/
theorem digitsVal_natRender (n : ℕ) : digitsVal (natRender n) = n := by
  induction n using Nat.strong_induction_on with
  | _ n ih =>
    unfold natRender
    by_cases h : n < 10
    · simp only [h, if_true]
      show 10 * 0 + digitVal (Char.ofNat (48 + n)) = n
      rw [(digitChar_spec h).2]
      omega
    · have hd : n % 10 < 10 := Nat.mod_lt n (by omega)
      simp only [h, if_false]
      rw [digitsVal_append_digit, ih (n / 10) (by omega), (digitChar_spec hd).2]
      omega

/-- Two-digit numbers render with exactly two characters. -/
theorem natRender_length_two {r : ℕ} (h1 : 10 ≤ r) (h2 : r < 100) :
    (natRender r).length = 2 := by
  have hq : r / 10 < 10 := by omega
  rw [natRender]
  rw [if_neg (by omega)]
  rw [natRender, if_pos hq]
  rfl

/-- ASCII digits are inert for every other piece of the float parser: not
whitespace, fixed by lowercasing, and none of `.`, `-`, `+`, `n`, `i`. -/
theorem digit_class {c : Char} (h : isDigitB c = true) :
    isSpaceB c = false ∧ toLowerB c = c ∧ (c != '.') = true ∧
    c ≠ '-' ∧ c ≠ '+' ∧ c ≠ 'n' ∧ c ≠ 'i' := by
  have hb : 48 ≤ c.toNat ∧ c.toNat ≤ 57 := by simpa [isDigitB] using h
  have hne : ∀ d : Char, d.toNat < 48 ∨ 57 < d.toNat → c ≠ d := by
    rintro d hd rfl; omega
  refine ⟨?_, ?_, ?_, ?_, ?_, ?_, ?_⟩
  · simp only [isSpaceB, Bool.or_eq_false_iff, beq_eq_false_iff_ne]
    exact ⟨⟨⟨⟨⟨hne ' ' (by decide), hne '\t' (by decide)⟩, hne '\n' (by decide)⟩,
      hne '\r' (by decide)⟩, hne '\x0b' (by decide)⟩, hne '\x0c' (by decide)⟩
  · unfold toLowerB
    rw [if_neg]
    omega
  · rw [bne_iff_ne]; exact hne '.' (by decide)
  · exact hne '-' (by decide)
  · exact hne '+' (by decide)
  · exact hne 'n' (by decide)
  · exact hne 'i' (by decide)

/-- If no element fails, `dropWhile`... conversely: if every element fails the
predicate, `dropWhile` keeps the list. -/
theorem dropWhile_eq_self_of {α : Type} (p : α → Bool) (l : List α)
    (h : ∀ x ∈ l, p x = false) : l.dropWhile p = l := by
  cases l with
  | nil => rfl
  | cons a as =>
    rw [List.dropWhile_cons, if_neg]
    simp [h a (List.mem_cons_self a as)]

/-- Stripping a string with no whitespace at all is the identity. -/
theorem stripL_eq_self {l : List Char} (h : ∀ x ∈ l, isSpaceB x = false) :
    stripL l = l := by
  unfold stripL
  rw [dropWhile_eq_self_of _ _ h,
      dropWhile_eq_self_of _ _ (fun x hx => h x (List.mem_reverse.mp hx)),
      List.reverse_reverse]

/-- `dropWhile` is idempotent. -/
theorem dropWhile_dropWhile {α : Type} (p : α → Bool) (l : List α) :
    (l.dropWhile p).dropWhile p = l.dropWhile p := by
  cases hd : l.dropWhile p with
  | nil => rfl
  | cons c rest =>
    rw [List.dropWhile_cons, if_neg]
    simp [dropWhile_head_false p l hd]

/-- A nonempty `dropWhile` keeps the last element. -/
theorem getLast_dropWhile {α : Type} (p : α → Bool) (l : List α)
    (h : l.dropWhile p ≠ []) : (l.dropWhile p).getLast? = l.getLast? := by
  induction l with
  | nil => simp at h
  | cons a as ih =>
    by_cases hp : p a = true
    · rw [List.dropWhile_cons, if_pos hp] at h ⊢
      cases has : as with
      | nil => subst has; simp at h
      | cons b bs =>
        subst has
        rw [ih h, List.getLast?_cons_cons]
    · rw [List.dropWhile_cons, if_neg (by simpa using hp)]

/-- Stripping is idempotent. -/
theorem stripL_idem (l : List Char) : stripL (stripL l) = stripL l := by
  unfold stripL
  set A := l.dropWhile isSpaceB with hA
  set C := A.reverse.dropWhile isSpaceB with hC
  have hstep1 : C.reverse.dropWhile isSpaceB = C.reverse := by
    cases hc : C with
    | nil => simp
    | cons c0 cs =>
      have hCne : A.reverse.dropWhile isSpaceB ≠ [] := by rw [← hC, hc]; simp
      have h1 : C.getLast? = A.reverse.getLast? := by
        rw [hC]; exact getLast_dropWhile _ _ hCne
      have h2 : A.reverse.getLast? = A.head? := List.getLast?_reverse A
      cases ha : A with
      | nil =>
        exfalso
        rw [ha] at hC
        simp at hC
        rw [hC] at hc
        cases hc
      | cons a0 as =>
        have ha0 : isSpaceB a0 = false :=
          dropWhile_head_false isSpaceB l (by rw [← hA, ha])
        have h3 : C.reverse.head? = some a0 := by
          rw [List.head?_reverse, h1, h2, ha]; rfl
        cases hcr : C.reverse with
        | nil => rw [hcr] at h3; cases h3
        | cons x xs =>
          rw [hcr] at h3
          injection h3 with h3'
          rw [hc] at hcr
          rw [hcr, List.dropWhile_cons, if_neg (by simp [h3', ha0])]
  rw [hstep1, List.reverse_reverse]
  have hCC : C.dropWhile isSpaceB = C := by
    rw [hC]; exact dropWhile_dropWhile isSpaceB A.reverse
  rw [hCC]

/-- Python `strip` is idempotent on strings. -/
theorem pyStrip_idem (s : String) : pyStrip (pyStrip s) = pyStrip s := by
  show String.mk (stripL (stripL s.data)) = String.mk (stripL s.data)
  rw [stripL_idem]

/-- The fractional digits rendered for cents `r < 100` are nonempty digits
evaluating to `r`/100 under the parser's place-value rule. -/
theorem fracCents_spec {r : ℕ} (hr : r < 100) :
    allDigits (fracCents r) = true ∧ fracCents r ≠ [] ∧
    (digitsVal (fracCents r) : ℚ) / (10 : ℚ) ^ (fracCents r).length = (r : ℚ) / 100 := by
  unfold fracCents
  by_cases h0 : r = 0
  · subst h0
    rw [if_pos rfl]
    refine ⟨by decide, by simp, ?_⟩
    rw [show digitsVal ['0'] = 0 from rfl]
    norm_num
  · rw [if_neg h0]
    by_cases h10 : r % 10 = 0
    · rw [if_pos h10]
      have hq : r / 10 < 10 := by omega
      refine ⟨by simp [allDigits, (digitChar_spec hq).1], by simp, ?_⟩
      have hv : digitsVal [Char.ofNat (48 + r / 10)] = r / 10 := by
        show 10 * 0 + digitVal (Char.ofNat (48 + r / 10)) = r / 10
        rw [(digitChar_spec hq).2]
        omega
      rw [hv]
      have hcancel : (r : ℚ) = ((r / 10 : ℕ) : ℚ) * 10 := by
        exact_mod_cast (Nat.div_mul_cancel (Nat.dvd_of_mod_eq_zero h10)).symm
      rw [hcancel]
      rw [show ([Char.ofNat (48 + r / 10)] : List Char).length = 1 from rfl]
      ring
    · rw [if_neg h10]
      by_cases hlt : r < 10
      · rw [if_pos hlt]
        refine ⟨by simp [allDigits, (digitChar_spec hlt).1, show isDigitB '0' = true from by decide],
          by simp, ?_⟩
        have hv : digitsVal ['0', Char.ofNat (48 + r)] = r := by
          show 10 * (10 * 0 + digitVal '0') + digitVal (Char.ofNat (48 + r)) = r
          rw [(digitChar_spec hlt).2, show digitVal '0' = 0 from rfl]
          omega
        rw [hv, show (['0', Char.ofNat (48 + r)] : List Char).length = 2 from rfl]
        norm_num
      · rw [if_neg hlt]
        refine ⟨natRender_allDigits r, natRender_ne_nil r, ?_⟩
        rw [digitsVal_natRender, natRender_length_two (by omega) hr]
        norm_num

/-- Mapping a function that fixes every element is the identity. -/
theorem map_id_of {α : Type} (f : α → α) (l : List α) (h : ∀ x ∈ l, f x = x) :
    l.map f = l := by
  induction l with
  | nil => rfl
  | cons a as ih =>
    rw [List.map_cons, h a (List.mem_cons_self a as),
        ih fun x hx => h x (List.mem_cons_of_mem a hx)]

/-- The float parser on a plain decimal literal `<digits>.<digits>` returns
the place-value reading: no sign, no special name, no whitespace to strip. -/
theorem parseFloat_of_decomp (ip fp : List Char)
    (hip : allDigits ip = true) (hipne : ip ≠ [])
    (hfp : allDigits fp = true) :
    pyParseFloat (String.mk (ip ++ '.' :: fp)) =
      some (.finite ((digitsVal ip : ℚ) +
        (digitsVal fp : ℚ) / (10 : ℚ) ^ fp.length)) := by
  obtain ⟨c0, ip', rfl⟩ := List.exists_cons_of_ne_nil hipne
  have hipc : isDigitB c0 = true ∧ ∀ x ∈ ip', isDigitB x = true := by
    rw [allDigits, List.all_cons, Bool.and_eq_true] at hip
    exact ⟨hip.1, fun x hx => List.all_eq_true.mp hip.2 x hx⟩
  have hfpc : ∀ x ∈ fp, isDigitB x = true := fun x hx => List.all_eq_true.mp hfp x hx
  obtain ⟨hs0, hl0, hd0, hm0, hp0, hn0, hi0⟩ := digit_class hipc.1
  have hmem : ∀ x ∈ (c0 :: ip') ++ '.' :: fp, isDigitB x = true ∨ x = '.' := by
    intro x hx
    rcases List.mem_append.mp hx with hx1 | hx2
    · rcases List.mem_cons.mp hx1 with rfl | hx1'
      · exact Or.inl hipc.1
      · exact Or.inl (hipc.2 x hx1')
    · rcases List.mem_cons.mp hx2 with rfl | hx2'
      · exact Or.inr rfl
      · exact Or.inl (hfpc x hx2')
  have hnospace : ∀ x ∈ (c0 :: ip') ++ '.' :: fp, isSpaceB x = false := by
    intro x hx
    rcases hmem x hx with hd | rfl
    · exact (digit_class hd).1
    · decide
  have ht : stripL ((c0 :: ip') ++ '.' :: fp) = (c0 :: ip') ++ '.' :: fp :=
    stripL_eq_self hnospace
  have hlow : ((c0 :: ip') ++ '.' :: fp).map toLowerB = (c0 :: ip') ++ '.' :: fp := by
    apply map_id_of
    intro x hx
    rcases hmem x hx with hd | rfl
    · exact (digit_class hd).2.1
    · decide
  unfold pyParseFloat
  rw [show (String.mk ((c0 :: ip') ++ '.' :: fp)).data = (c0 :: ip') ++ '.' :: fp from rfl]
  rw [ht, List.cons_append, List.head?_cons]
  rw [if_neg (by intro he; injection he with he'; exact hm0 he')]
  rw [if_neg (by intro he; injection he with he'; exact hp0 he')]
  unfold pyParseNum
  rw [← List.cons_append, hlow]
  rw [if_neg (by
    intro he
    rw [List.cons_append] at he
    injection he with h1 _
    exact hn0 h1)]
  rw [if_neg (by
    rintro (he | he) <;>
      (rw [List.cons_append] at he; injection he with h1 _; exact hi0 h1))]
  have hipdot : ∀ x ∈ c0 :: ip', (x != '.') = true := by
    intro x hx
    rcases List.mem_cons.mp hx with rfl | hx'
    · exact hd0
    · exact (digit_class (hipc.2 x hx')).2.2.1
  have hdotfail : (('.' : Char) != '.') = false := by decide
  unfold parseUDec
  rw [takeWhile_append_eq _ (c0 :: ip') '.' fp hipdot hdotfail,
      dropWhile_append_eq _ (c0 :: ip') '.' fp hipdot hdotfail]
  dsimp only
  rw [if_pos]
  · rfl
  · refine ⟨Or.inl (by simp), hip, hfp, ?_⟩
    rw [List.all_eq_true]
    intro x hx
    exact (digit_class (hfpc x hx)).2.2.1

/-- Parsing the rendered two-decimal literal recovers the value `n`/100. -/
theorem parse_renderCents (n : ℕ) :
    pyParseFloat (String.mk (renderCentsL n)) = some (.finite ((n : ℚ) / 100)) := by
  have h100 : n % 100 < 100 := Nat.mod_lt n (by omega)
  obtain ⟨hfd, hfne, hfval⟩ := fracCents_spec h100
  unfold renderCentsL
  rw [parseFloat_of_decomp _ _ (natRender_allDigits _) (natRender_ne_nil _) hfd]
  refine congrArg some (congrArg Pyf.finite ?_)
  rw [digitsVal_natRender, hfval]
  have key : (n : ℚ) = 100 * ((n / 100 : ℕ) : ℚ) + ((n % 100 : ℕ) : ℚ) := by
    exact_mod_cast (Nat.div_add_mod n 100).symm
  rw [key]
  ring

/-- Rounding an integer is the identity. -/
theorem roundHalfEven_intCast (k : ℤ) : roundHalfEven (k : ℚ) = k := by
  unfold roundHalfEven
  rw [Int.floor_intCast, sub_self]
  norm_num

/-- Rounding to two decimals is idempotent. -/
theorem round2_idem (x : Pyf) : round2 (round2 x) = round2 x := by
  cases x with
  | finite q =>
    show round2 (.finite ((roundHalfEven (100 * q) : ℚ) / 100)) = _
    unfold round2
    refine congrArg Pyf.finite ?_
    have h : (100 : ℚ) * ((roundHalfEven (100 * q) : ℚ) / 100) =
        (roundHalfEven (100 * q) : ℚ) := by ring
    rw [h, roundHalfEven_intCast]
  | nan => rfl
  | inf => rfl
  | ninf => rfl

/-- Invariants of a stored (validly constructed) expense: valid date stored
verbatim, normalized category in the enumeration, stripped description, and
an amount fixed by two-decimal rounding. -/
def WF (e : Expense) : Prop :=
  (strptimeYmd e.date).isSome = true ∧ e.category ∈ CATEGORIES ∧
  pyStrip e.description = e.description ∧ round2 e.amount = e.amount

/-- A validated amount is a rounding fixed point. -/
theorem validate_amount_round {a : Option String} {amt : Pyf}
    (h : validate_amount a = .ok amt) : round2 amt = amt := by
  unfold validate_amount at h
  rcases a with _ | s
  · cases h
  · dsimp only at h
    rcases hp : pyParseFloat s with _ | v
    · rw [hp] at h; cases h
    · rw [hp] at h
      dsimp only at h
      by_cases hle : pyfLe v (.finite 0) = true
      · rw [if_pos hle] at h; cases h
      · rw [if_neg hle] at h
        injection h with h'
        rw [← h', round2_idem]

/-- A validated category is stored normalized and lies in the enumeration. -/
theorem validate_category_mem {c cat : String}
    (h : validate_category c = .ok cat) : cat ∈ CATEGORIES := by
  unfold validate_category at h
  by_cases hm : pyTitle (pyStrip c) ∈ CATEGORIES
  · rw [if_pos hm] at h
    injection h with h'
    rw [← h']
    exact hm
  · rw [if_neg hm] at h; cases h

/-- A validated date is returned unchanged and parses. -/
theorem validate_date_spec {d dt : String}
    (h : validate_date d = .ok dt) :
    dt = d ∧ (strptimeYmd dt).isSome = true := by
  unfold validate_date at h
  by_cases hs : (strptimeYmd d).isSome = true
  · rw [if_pos hs] at h
    injection h with h'
    exact ⟨h'.symm, h'.symm ▸ hs⟩
  · rw [if_neg hs] at h; cases h

/-- Every successfully constructed expense satisfies the stored invariants. -/
theorem mkExpense_WF {a : Option String} {c d ds : String} {e : Expense}
    (h : mkExpense a c d ds = .ok e) : WF e := by
  unfold mkExpense at h
  rcases hva : validate_amount a with ea | amt
  · rw [hva] at h; cases h
  · rw [hva] at h
    dsimp only at h
    rcases hvc : validate_category c with ec | cat
    · rw [hvc] at h; cases h
    · rw [hvc] at h
      dsimp only at h
      rcases hvd : validate_date d with ed | dt
      · rw [hvd] at h; cases h
      · rw [hvd] at h
        dsimp only at h
        injection h with h'
        subst h'
        obtain ⟨hdd, hds⟩ := validate_date_spec hvd
        exact ⟨hds, validate_category_mem hvc, pyStrip_idem ds,
          validate_amount_round hva⟩

/-- Trim and title-case fix every stored category name. -/
theorem cat_title_fix : ∀ c ∈ CATEGORIES, pyTitle (pyStrip c) = c := by
  intro c hc
  fin_cases hc <;> rfl

/-- Amount round trip: rendering a stored amount that passes the load-time
check and validating it again recovers exactly the stored amount. -/
theorem validate_reprAmt {x : Pyf} (hround : round2 x = x)
    (hpos : pyfLe x (.finite 0) = false) :
    validate_amount (some (reprAmt x)) = .ok x := by
  cases x with
  | nan => with_unfolding_all rfl
  | inf => with_unfolding_all rfl
  | ninf => exact absurd hpos (by decide)
  | finite q =>
    have hq : ((roundHalfEven (100 * q) : ℤ) : ℚ) / 100 = q := by
      have h2 := hround
      unfold round2 at h2
      injection h2
    have hposq : ¬ q ≤ 0 := by
      intro hle
      rw [show pyfLe (.finite q) (.finite 0) = decide (q ≤ 0) from rfl] at hpos
      simp [hle] at hpos
    have hq0 : 0 < q := not_le.mp hposq
    have hk100 : ((roundHalfEven (100 * q) : ℤ) : ℚ) = 100 * q := by
      linear_combination (100 : ℚ) * hq
    have hkpos : 0 < roundHalfEven (100 * q) := by
      have hc : (0 : ℚ) < ((roundHalfEven (100 * q) : ℤ) : ℚ) := by
        rw [hk100]; linarith
      exact_mod_cast hc
    have hden : (100 * q).den = 1 := by rw [← hk100]; exact Rat.den_intCast _
    have hnum : (100 * q).num = roundHalfEven (100 * q) := by
      conv_lhs => rw [← hk100]
      exact Rat.num_intCast _
    have hrepr : reprAmt (.finite q) =
        String.mk (renderCentsL (roundHalfEven (100 * q)).toNat) := by
      unfold reprAmt
      dsimp only
      rw [if_pos ⟨hden, hq0.le⟩, hnum]
    have hcastq : (((roundHalfEven (100 * q)).toNat : ℕ) : ℚ) / 100 = q := by
      have hc : (((roundHalfEven (100 * q)).toNat : ℕ) : ℚ) =
          ((roundHalfEven (100 * q) : ℤ) : ℚ) := by
        exact_mod_cast Int.toNat_of_nonneg hkpos.le
      rw [hc, hq]
    rw [hrepr]
    unfold validate_amount
    dsimp only
    rw [parse_renderCents (roundHalfEven (100 * q)).toNat]
    dsimp only
    rw [hcastq, if_neg (by rw [hpos]; simp), hround]

/-- Loading the row that `save_expenses` writes for a well-formed expense
whose stored amount passes the `amt <= 0` check reconstructs the expense. -/
theorem loadRow_save (e : Expense) (hwf : WF e)
    (hpos : pyfLe e.amount (.finite 0) = false) :
    loadRow stdHeader [e.date, e.category, reprAmt e.amount, e.description] = .rok e := by
  obtain ⟨hdate, hcat, hdesc, hamt⟩ := hwf
  have hA : rowGet stdHeader [e.date, e.category, reprAmt e.amount, e.description]
      "Amount" = .ok (some (reprAmt e.amount)) := rfl
  have hC : rowGet stdHeader [e.date, e.category, reprAmt e.amount, e.description]
      "Category" = .ok (some e.category) := rfl
  have hD : rowGet stdHeader [e.date, e.category, reprAmt e.amount, e.description]
      "Date" = .ok (some e.date) := rfl
  have hDs : rowGet stdHeader [e.date, e.category, reprAmt e.amount, e.description]
      "Description" = .ok (some e.description) := rfl
  have hvc : validate_category e.category = .ok e.category := by
    unfold validate_category
    rw [cat_title_fix e.category hcat, if_pos hcat]
  have hvd : validate_date e.date = .ok e.date := by
    unfold validate_date
    rw [if_pos hdate]
  unfold loadRow
  rw [hA, hC, hD, hDs]
  dsimp only
  rw [validate_reprAmt hamt hpos]
  dsimp only
  rw [hvc]
  dsimp only
  rw [hvd]
  dsimp only
  rw [hdesc]

/-- Claim C1 (amended): for every collection of validly-constructed expenses
whose stored amounts each pass the load-time `amt <= 0` check (equivalently:
no stored amount rounded down to `0.00`), saving and then loading reproduces
the collection field-wise, in order. -/
theorem C1_roundtrip (E : List Expense)
    (h : ∀ e ∈ E, (∃ a c d ds, mkExpense a c d ds = .ok e) ∧
      pyfLe e.amount (.finite 0) = false) :
    load_expenses (some (save_expenses E)) = E := by
  show loadRows stdHeader
    (E.map (fun e => [e.date, e.category, reprAmt e.amount, e.description])) = E
  induction E with
  | nil => rfl
  | cons e rest ih =>
    obtain ⟨⟨a, c, d, ds, hmk⟩, hpos⟩ := h e (List.mem_cons_self e rest)
    rw [List.map_cons]
    show (match loadRow stdHeader [e.date, e.category, reprAmt e.amount, e.description] with
      | .rok e' => e' :: loadRows stdHeader
          (rest.map (fun x => [x.date, x.category, reprAmt x.amount, x.description]))
      | .rskip => loadRows stdHeader
          (rest.map (fun x => [x.date, x.category, reprAmt x.amount, x.description]))
      | .rabort => []) = e :: rest
    rw [loadRow_save e (mkExpense_WF hmk) hpos]
    rw [ih fun x hx => h x (List.mem_cons_of_mem e hx)]

/-- Witness for C1 at a concrete one-element collection: the expense built
from amount `"5.25"` (stored `5.25 > 0`) survives the save/load round
trip. -/
theorem C1_roundtrip_witness :
    mkExpense (some "5.25") "Food" "2024-01-01" " lunch " =
      .ok ⟨.finite (mkRat 21 4), "Food", "2024-01-01", "lunch"⟩ ∧
    load_expenses (some (save_expenses
        [⟨.finite (mkRat 21 4), "Food", "2024-01-01", "lunch"⟩])) =
      [⟨.finite (mkRat 21 4), "Food", "2024-01-01", "lunch"⟩] := by
  have hmk : mkExpense (some "5.25") "Food" "2024-01-01" " lunch " =
      .ok ⟨.finite (mkRat 21 4), "Food", "2024-01-01", "lunch"⟩ := by
    with_unfolding_all rfl
  refine ⟨hmk, C1_roundtrip _ ?_⟩
  intro e he
  rw [List.mem_singleton] at he
  subst he
  exact ⟨⟨some "5.25", "Food", "2024-01-01", " lunch ", hmk⟩, by with_unfolding_all rfl⟩
